import Mathlib

/-!
Verification of the hybrid movie-recommendation engine in `main.py`:
the rating merge layer (`load_and_merge_ratings`), the ensemble
factorization layer (`train_ensemble_als_models`,
`ensemble_recommendations`), the Thompson-Sampling bandit
(`ThompsonSamplingRecommender`) and the personalization orchestrator
(`recommend_personalization_logic`), together with the title lookup
(`find_movie_index_by_name`).

Python floats that only ever hold small decimal constants and ratings are
modelled as `ℚ`; Python dicts are modelled as association lists with
first-match lookup and python's replace-or-append assignment, which agrees
with dict semantics whenever keys are unique (the programme only builds
dicts with unique keys).  Randomness (Beta draws, `np.random.choice`, the
final `random.shuffle`) is passed in as explicit oracles constrained by the
hypotheses the numpy primitives guarantee.
-/

namespace MovieRec

/-! ## Rating merge store (`load_and_merge_ratings`, main.py lines 637-705) -/

/-- One interaction record: a row of the merged ratings table. -/
structure Rating where
  user_id : String
  movie_id : String
  rating : ℚ
  source : String
deriving DecidableEq, Repr

/-- The deduplication key used by `drop_duplicates(subset=['user_id','movie_id'])`. -/
def ratingKey (r : Rating) : String × String := (r.user_id, r.movie_id)

/-- `df['source'] = s` on one row. -/
def tagSource (s : String) (r : Rating) : Rating := { r with source := s }

/-- `pandas.DataFrame.drop_duplicates(subset=key, keep='last')`: a row is kept
iff no later row carries the same key; kept rows stay in their original
relative order. -/
def dropDuplicatesKeepLast : List Rating → List Rating
  | [] => []
  | r :: rest =>
    if rest.any (fun s => ratingKey s = ratingKey r) then
      dropDuplicatesKeepLast rest
    else
      r :: dropDuplicatesKeepLast rest

/-- The merge step of `load_and_merge_ratings` (main.py lines 674-690):
tag the CSV rows with source `csv` and the Firebase rows with source
`firebase`; when the Firebase list is nonempty, concatenate (CSV first)
and drop duplicate `(user_id, movie_id)` keys keeping the last row;
when the Firebase list is empty the CSV table is returned unchanged. -/
def load_and_merge (csv fb : List Rating) : List Rating :=
  let csvT := csv.map (tagSource "csv")
  let fbT := fb.map (tagSource "firebase")
  if fbT.isEmpty then csvT
  else dropDuplicatesKeepLast (csvT ++ fbT)

theorem ratingKey_tagSource (s : String) (r : Rating) :
    ratingKey (tagSource s r) = ratingKey r := rfl

theorem mem_dropDuplicatesKeepLast {r : Rating} :
    ∀ {l : List Rating}, r ∈ dropDuplicatesKeepLast l → r ∈ l
  | [], h => by simp [dropDuplicatesKeepLast] at h
  | x :: rest, h => by
    by_cases hx : rest.any (fun s => ratingKey s = ratingKey x) = true
    · rw [dropDuplicatesKeepLast, if_pos hx] at h
      exact List.mem_cons_of_mem _ (mem_dropDuplicatesKeepLast h)
    · rw [dropDuplicatesKeepLast, if_neg hx] at h
      rcases List.mem_cons.mp h with h | h
      · exact h ▸ List.mem_cons_self _ _
      · exact List.mem_cons_of_mem _ (mem_dropDuplicatesKeepLast h)

/-- A surviving row whose key also occurs in the suffix `ys` must itself come
from `ys` (the earlier occurrence is dropped by keep-last). -/
theorem mem_suffix_of_key_in_suffix {r : Rating} :
    ∀ {xs ys : List Rating}, r ∈ dropDuplicatesKeepLast (xs ++ ys) →
      (∃ y ∈ ys, ratingKey y = ratingKey r) → r ∈ ys
  | [], ys, hmem, _ => mem_dropDuplicatesKeepLast hmem
  | x :: xs, ys, hmem, hkey => by
    by_cases hx : (xs ++ ys).any (fun s => ratingKey s = ratingKey x) = true
    · rw [List.cons_append, dropDuplicatesKeepLast, if_pos hx] at hmem
      exact mem_suffix_of_key_in_suffix hmem hkey
    · rw [List.cons_append, dropDuplicatesKeepLast, if_neg hx] at hmem
      rcases List.mem_cons.mp hmem with hmem | hmem
      · subst hmem
        rcases hkey with ⟨y, hy, hyk⟩
        exact absurd (by
          simp only [List.any_eq_true, decide_eq_true_eq]
          exact ⟨y, List.mem_append_right _ hy, hyk⟩) hx
      · exact mem_suffix_of_key_in_suffix hmem hkey

/-- Number of rows of `rows` carrying key `k`. -/
def countKey (rows : List Rating) (k : String × String) : Nat :=
  (rows.filter fun r => ratingKey r = k).length

theorem countKey_dropDuplicatesKeepLast (k : String × String) :
    ∀ l : List Rating,
      countKey (dropDuplicatesKeepLast l) k
        = if l.any (fun r => ratingKey r = k) then 1 else 0
  | [] => by simp [countKey, dropDuplicatesKeepLast]
  | r :: rest => by
    by_cases hr : rest.any (fun s => ratingKey s = ratingKey r) = true
    · rw [dropDuplicatesKeepLast, if_pos hr]
      rw [countKey_dropDuplicatesKeepLast k rest]
      by_cases hk : ratingKey r = k
      · have hrest : rest.any (fun s => ratingKey s = k) = true := by
          simpa [hk] using hr
        simp [List.any_cons, hrest, hk]
      · simp [List.any_cons, hk]
    · rw [dropDuplicatesKeepLast, if_neg hr]
      by_cases hk : ratingKey r = k
      · have hrest : rest.any (fun s => ratingKey s = k) = false := by
          subst hk
          simpa using hr
        have htail := countKey_dropDuplicatesKeepLast k rest
        rw [hrest] at htail
        simp only [countKey, List.filter_cons, hk] at htail ⊢
        simp [List.any_cons, hk, htail, countKey]
      · have htail := countKey_dropDuplicatesKeepLast k rest
        simp only [countKey, List.filter_cons] at htail ⊢
        simp [List.any_cons, hk, htail, countKey]

/-- Claim C1 counterexample: when the live (Firebase) set is empty the merge
skips deduplication entirely, so a batch table holding two rows for the same
`(user_id, movie_id)` pair survives with both rows: the merged table does not
contain exactly one row per unique pair. -/
theorem merge_dup_batch_counterexample :
    ((load_and_merge
        [⟨"u", "m", 3, ""⟩, ⟨"u", "m", 4, ""⟩] []).filter
      fun r => ratingKey r = ("u", "m")).length = 2 := by decide

/-- Claim C1 (amended): whenever the live (Firebase) interaction set is
nonempty, the merged table contains exactly one row per `(user_id, movie_id)`
pair occurring in either source, and every surviving row whose pair occurs in
both sources is the live-source row. -/
theorem merge_dedup_live_wins (csv fb : List Rating) (hfb : fb ≠ []) :
    (∀ k : String × String,
      countKey (load_and_merge csv fb) k
        = if (csv ++ fb).any (fun r => ratingKey r = k) then 1 else 0)
    ∧ (∀ r ∈ load_and_merge csv fb,
        (∃ c ∈ csv, ratingKey c = ratingKey r) →
        (∃ f ∈ fb, ratingKey f = ratingKey r) → r.source = "firebase") := by
  have hfbT : (fb.map (tagSource "firebase")).isEmpty = false := by
    cases fb with
    | nil => exact absurd rfl hfb
    | cons f fs => simp
  constructor
  · intro k
    rw [load_and_merge]
    simp only [hfbT, Bool.false_eq_true, if_false]
    rw [countKey_dropDuplicatesKeepLast]
    have hany : ((csv.map (tagSource "csv") ++ fb.map (tagSource "firebase")).any
          fun r => ratingKey r = k)
        = (csv ++ fb).any (fun r => ratingKey r = k) := by
      simp [List.any_append, List.any_map, Function.comp_def, ratingKey_tagSource]
    rw [hany]
  · intro r hr _ hfbk
    rw [load_and_merge] at hr
    simp only [hfbT, Bool.false_eq_true, if_false] at hr
    have hkey : ∃ y ∈ fb.map (tagSource "firebase"), ratingKey y = ratingKey r := by
      rcases hfbk with ⟨f, hf, hfk⟩
      exact ⟨tagSource "firebase" f, List.mem_map_of_mem _ hf, by
        rw [ratingKey_tagSource, hfk]⟩
    have hmem : r ∈ fb.map (tagSource "firebase") :=
      mem_suffix_of_key_in_suffix hr hkey
    rcases List.mem_map.mp hmem with ⟨f, _, hfr⟩
    rw [← hfr]
    rfl

/-- Concrete run of `merge_dedup_live_wins`: one CSV row and one Firebase row
for the same pair merge to a single row. -/
theorem merge_dedup_live_wins_witness :
    countKey (load_and_merge [⟨"u", "m", 3, ""⟩] [⟨"u", "m", 5, ""⟩])
      ("u", "m") = 1 := by
  have h := (merge_dedup_live_wins [⟨"u", "m", 3, ""⟩] [⟨"u", "m", 5, ""⟩]
    (by decide)).1 ("u", "m")
  simpa using h

/-! ## Ensemble shape invariant (main.py lines 862-873 and 984-1001) -/

/-- The row counts of one factorization model's learned factor matrices:
`model.user_factors.shape[0]` and `model.item_factors.shape[0]`. -/
structure FactorShapes where
  userRows : Nat
  itemRows : Nat
deriving DecidableEq, Repr

/-- The retrain decision of `recommend_personalization_logic`
(main.py lines 980-997): `need_retrain = force_retrain or not ensemble_models`;
then, when the cache is nonempty and no force flag is set, the FIRST cached
model's factor-matrix row counts are compared against the current user and
movie counts and any disagreement sets `need_retrain`.  `models` lists the
cached models' factor shapes in the dict's value order. -/
def needRetrain (forceRetrain : Bool) (models : List FactorShapes)
    (nUsers nMovies : Nat) : Bool :=
  let nr := forceRetrain || models.isEmpty
  match models, forceRetrain with
  | m0 :: _, false =>
    if m0.userRows ≠ nUsers ∨ m0.itemRows ≠ nMovies then true else nr
  | _, _ => nr

/-- The per-model guard of `ensemble_recommendations` (main.py lines 862-873):
a cached model is actually scored only when the requested user index lies
inside its user-factor matrix and the scoring row's column count equals its
item-factor row count; otherwise the model is skipped with a log line. -/
def modelUsedForScoring (userIdx : Nat) (m : FactorShapes)
    (userItemsCols : Nat) : Bool :=
  if m.userRows ≤ userIdx then false
  else if userItemsCols ≠ m.itemRows then false
  else true

/-- Claim C2 counterexample: an ensemble whose first cached model matches the
current matrix (2 users, 3 movies) but whose second model disagrees
(5 user rows, 7 item rows) is NOT retrained: the compatibility check reads
only the first model, so a mismatched model in the ensemble does not trigger
the full retrain the claim demands. -/
theorem retrain_check_skips_second_model :
    needRetrain false [⟨2, 3⟩, ⟨5, 7⟩] 2 3 = false
    ∧ (⟨5, 7⟩ : FactorShapes) ∈ [(⟨2, 3⟩ : FactorShapes), ⟨5, 7⟩]
    ∧ (FactorShapes.userRows ⟨5, 7⟩ ≠ 2 ∨ FactorShapes.itemRows ⟨5, 7⟩ ≠ 3) := by
  refine ⟨by decide, by decide, by decide⟩

/-- Claim C2 (amended): the retrain check inspects only the first cached
model — whenever the FIRST model's factor-matrix row counts disagree with the
current user or movie counts the whole ensemble is retrained (regardless of
the force flag); independently, at scoring time any model whose item-factor
row count disagrees with the scoring matrix's column count is skipped, never
used. -/
theorem first_model_mismatch_retrains (force : Bool) (models : List FactorShapes)
    (m0 : FactorShapes) (nU nM : Nat) (h0 : models.head? = some m0)
    (hmis : m0.userRows ≠ nU ∨ m0.itemRows ≠ nM) :
    needRetrain force models nU nM = true
    ∧ ∀ (uIdx : Nat) (m : FactorShapes) (cols : Nat),
        cols ≠ m.itemRows → modelUsedForScoring uIdx m cols = false := by
  constructor
  · cases models with
    | nil => simp at h0
    | cons a rest =>
      have ha : a = m0 := by simpa using h0
      subst ha
      cases force with
      | false => simp [needRetrain, hmis]
      | true => simp [needRetrain]
  · intro uIdx m cols hcols
    by_cases hu : m.userRows ≤ uIdx
    · simp [modelUsedForScoring, hu]
    · simp [modelUsedForScoring, hu, hcols]

/-- Concrete run of `first_model_mismatch_retrains`: a single cached model
with 3 user rows is retrained when the current matrix has 2 users, and a model
whose 4 item rows disagree with a 9-column scoring row is skipped. -/
theorem first_model_mismatch_retrains_witness :
    needRetrain false [⟨3, 4⟩] 2 4 = true
    ∧ modelUsedForScoring 0 ⟨3, 4⟩ 9 = false := by
  have h := first_model_mismatch_retrains false [⟨3, 4⟩] ⟨3, 4⟩ 2 4 rfl
    (Or.inl (by decide))
  exact ⟨h.1, h.2 0 ⟨3, 4⟩ 9 (by decide)⟩

/-! ## Missing user identifier guard (main.py lines 922-924) -/

/-- A Python value as it appears in the user-id extraction: either `None`
(the key is absent from the JSON payload) or a string. -/
inductive PyVal where
  | none
  | str (s : String)
deriving DecidableEq, Repr

/-- Python truthiness for the two value shapes: `None` is falsy, a string is
truthy iff nonempty. -/
def pyTruthy : PyVal → Bool
  | .none => false
  | .str s => !s.isEmpty

/-- Python `a or b`: the first operand when truthy, otherwise the second. -/
def pyOr (a b : PyVal) : PyVal := if pyTruthy a then a else b

/-- Python `str(v)`: `str(None)` is the literal string `None`. -/
def pyStr : PyVal → String
  | .none => "None"
  | .str s => s

/-- The guard of `recommend_personalization_logic` (main.py lines 922-924):
`user_id = str(payload.get("user_id") or payload.get("userId"))` followed by
`if not user_id: return error 400`.  `Except.error 400` is the client-error
rejection; `Except.ok uid` means the function proceeds to scoring with
`uid`. -/
def recommendUserIdCheck (user_id userId : PyVal) : Except Nat String :=
  let uid := pyStr (pyOr user_id userId)
  if uid.isEmpty then .error 400 else .ok uid

/-- Claim C3 (code bug): a payload containing neither `user_id` nor `userId`
is NOT rejected with a 400 — `str(None)` yields the truthy string `None`, so
the guard passes and the request proceeds to scoring under the bogus user id
`None`.  The spec (and the guard's own intent) requires a client-error
rejection here. -/
theorem missing_user_id_not_rejected :
    recommendUserIdCheck PyVal.none PyVal.none = Except.ok "None" := rfl

/-! ## Thompson-Sampling bandit (`ThompsonSamplingRecommender`, main.py 708-776)

The `alpha` (success) and `beta_param` (failure) dicts are modelled as
association lists with Python dict semantics: lookup finds the first entry,
assignment replaces an existing entry in place or appends a new one. -/

/-- `d.get(k, dflt)` on a Python dict. -/
def dictGet : List (String × Nat) → String → Nat → Nat
  | [], _, dflt => dflt
  | p :: rest, k, dflt => if p.1 = k then p.2 else dictGet rest k dflt

/-- `k in d` on a Python dict. -/
def dictContains : List (String × Nat) → String → Bool
  | [], _ => false
  | p :: rest, k => if p.1 = k then true else dictContains rest k

/-- `d[k] = v` on a Python dict: replace the entry in place when the key is
present, append it otherwise. -/
def dictSet : List (String × Nat) → String → Nat → List (String × Nat)
  | [], k, v => [(k, v)]
  | p :: rest, k, v =>
    if p.1 = k then (k, v) :: rest else p :: dictSet rest k v

theorem dictGet_dictSet_self (d : List (String × Nat)) (k : String)
    (v dflt : Nat) : dictGet (dictSet d k v) k dflt = v := by
  induction d with
  | nil => simp [dictSet, dictGet]
  | cons p rest ih =>
    by_cases hp : p.1 = k
    · simp [dictSet, hp, dictGet]
    · simp [dictSet, hp, dictGet, ih]

theorem dictGet_dictSet_ne (d : List (String × Nat)) {k k' : String}
    (v dflt : Nat) (hne : k' ≠ k) :
    dictGet (dictSet d k v) k' dflt = dictGet d k' dflt := by
  have hkk : ¬(k = k') := fun h => hne h.symm
  induction d with
  | nil => simp [dictSet, dictGet, hkk]
  | cons p rest ih =>
    by_cases hp : p.1 = k
    · simp [dictSet, hp, dictGet, hkk]
    · simp [dictSet, hp, dictGet, ih]

theorem dictGet_default_of_not_contains {d : List (String × Nat)} {k : String}
    (h : dictContains d k = false) (dflt : Nat) : dictGet d k dflt = dflt := by
  induction d with
  | nil => simp [dictGet]
  | cons p rest ih =>
    by_cases hp : p.1 = k
    · simp [dictContains, hp] at h
    · simp [dictContains, hp] at h
      simp [dictGet, hp, ih h]

theorem dictContains_dictSet_self (d : List (String × Nat)) (k : String)
    (v : Nat) : dictContains (dictSet d k v) k = true := by
  induction d with
  | nil => simp [dictSet, dictContains]
  | cons p rest ih =>
    by_cases hp : p.1 = k
    · simp [dictSet, hp, dictContains]
    · simp [dictSet, hp, dictContains, ih]

theorem dictContains_dictSet_mono (d : List (String × Nat)) {k k' : String}
    (v : Nat) (h : dictContains d k' = true) :
    dictContains (dictSet d k v) k' = true := by
  by_cases hkk : k = k'
  · subst hkk
    exact dictContains_dictSet_self d k v
  · induction d with
    | nil => simp [dictContains] at h
    | cons p rest ih =>
      have hk'k : ¬(k' = k) := fun h => hkk h.symm
      by_cases hp : p.1 = k
      · have hp' : ¬(p.1 = k') := by rw [hp]; exact hkk
        simp only [dictContains, hp', if_false] at h
        simp [dictSet, hp, dictContains, hkk, hk'k, h]
      · by_cases hp' : p.1 = k'
        · simp [dictSet, hp, dictContains, hp', hk'k]
        · simp only [dictContains, hp', if_false] at h
          simp [dictSet, hp, dictContains, hp', hk'k, ih h]

/-- The bandit belief state: per movie, a success counter `alpha` and a
failure counter `beta_param` parameterizing a Beta distribution. -/
structure TSState where
  alpha : List (String × Nat)
  beta_param : List (String × Nat)
deriving DecidableEq, Repr

/-- `ThompsonSamplingRecommender.update` (main.py lines 717-729): on first
reference the movie's counters are initialized to the uniform prior
`Beta(1,1)`; then the success counter is incremented when `reward > 0.5`,
otherwise the failure counter is incremented. -/
def TSupdate (st : TSState) (movie : String) (reward : ℚ) : TSState :=
  let st1 :=
    if dictContains st.alpha movie then st
    else ⟨dictSet st.alpha movie 1, dictSet st.beta_param movie 1⟩
  if 1 / 2 < reward then
    ⟨dictSet st1.alpha movie (dictGet st1.alpha movie 1 + 1), st1.beta_param⟩
  else
    ⟨st1.alpha, dictSet st1.beta_param movie (dictGet st1.beta_param movie 1 + 1)⟩

/-- The reward the callers derive from a rating
(main.py lines 935 and 954): `1 if rating >= 3.5 else 0`. -/
def rewardOfRating (rating : ℚ) : ℚ := if 7 / 2 ≤ rating then 1 else 0

/-- Claim C6: `update` initializes a first-referenced movie to `Beta(1,1)`
(so reads with default 1 agree before and after), increments exactly one
counter — the success counter iff the reward is above the fixed `0.5`
threshold, which the callers hit exactly when the rating is at least `3.5` —
leaves every other movie's counters unchanged, and never deletes an entry.
The hypothesis states the class invariant that `alpha` and `beta_param`
always hold the same keys. -/
theorem bandit_update_increments_one_counter (st : TSState) (m : String)
    (r : ℚ) (hsync : dictContains st.alpha m = dictContains st.beta_param m) :
    (dictGet (TSupdate st m r).alpha m 1
      = dictGet st.alpha m 1 + (if 1 / 2 < r then 1 else 0))
    ∧ (dictGet (TSupdate st m r).beta_param m 1
      = dictGet st.beta_param m 1 + (if 1 / 2 < r then 0 else 1))
    ∧ (∀ k, k ≠ m →
        dictGet (TSupdate st m r).alpha k 1 = dictGet st.alpha k 1
        ∧ dictGet (TSupdate st m r).beta_param k 1 = dictGet st.beta_param k 1)
    ∧ (∀ k, dictContains st.alpha k = true →
        dictContains (TSupdate st m r).alpha k = true)
    ∧ (∀ k, dictContains st.beta_param k = true →
        dictContains (TSupdate st m r).beta_param k = true)
    ∧ (∀ q : ℚ, 1 / 2 < rewardOfRating q ↔ 7 / 2 ≤ q) := by
  have hreward : ∀ q : ℚ, 1 / 2 < rewardOfRating q ↔ 7 / 2 ≤ q := by
    intro q
    by_cases hq : 7 / 2 ≤ q
    · norm_num [rewardOfRating, hq]
    · norm_num [rewardOfRating, hq]
  by_cases hc : dictContains st.alpha m = true
  · have e : TSupdate st m r =
        if 1 / 2 < r then
          ⟨dictSet st.alpha m (dictGet st.alpha m 1 + 1), st.beta_param⟩
        else
          ⟨st.alpha, dictSet st.beta_param m (dictGet st.beta_param m 1 + 1)⟩ := by
      simp [TSupdate, hc]
    by_cases hr : 1 / 2 < r
    · rw [e, if_pos hr]
      refine ⟨?_, ?_, fun k hk => ⟨?_, ?_⟩, fun k hks => ?_, fun k hks => ?_, hreward⟩
      · rw [if_pos hr, dictGet_dictSet_self]
      · rw [if_pos hr]
        rfl
      · exact dictGet_dictSet_ne _ _ _ hk
      · rfl
      · exact dictContains_dictSet_mono _ _ hks
      · exact hks
    · rw [e, if_neg hr]
      refine ⟨?_, ?_, fun k hk => ⟨?_, ?_⟩, fun k hks => ?_, fun k hks => ?_, hreward⟩
      · rw [if_neg hr]
        rfl
      · rw [if_neg hr, dictGet_dictSet_self]
      · rfl
      · exact dictGet_dictSet_ne _ _ _ hk
      · exact hks
      · exact dictContains_dictSet_mono _ _ hks
  · have hcf : dictContains st.alpha m = false := by
      simpa using hc
    have hcb : dictContains st.beta_param m = false := hsync.symm.trans hcf
    have ha1 : dictGet st.alpha m 1 = 1 := dictGet_default_of_not_contains hcf 1
    have hb1 : dictGet st.beta_param m 1 = 1 := dictGet_default_of_not_contains hcb 1
    have e : TSupdate st m r =
        if 1 / 2 < r then
          ⟨dictSet (dictSet st.alpha m 1) m (dictGet (dictSet st.alpha m 1) m 1 + 1),
            dictSet st.beta_param m 1⟩
        else
          ⟨dictSet st.alpha m 1,
            dictSet (dictSet st.beta_param m 1) m
              (dictGet (dictSet st.beta_param m 1) m 1 + 1)⟩ := by
      simp [TSupdate, hcf]
    by_cases hr : 1 / 2 < r
    · rw [e, if_pos hr]
      refine ⟨?_, ?_, fun k hk => ⟨?_, ?_⟩, fun k hks => ?_, fun k hks => ?_, hreward⟩
      · rw [if_pos hr, dictGet_dictSet_self, dictGet_dictSet_self, ha1]
      · rw [if_pos hr, dictGet_dictSet_self, hb1]
      · rw [dictGet_dictSet_ne _ _ _ hk, dictGet_dictSet_ne _ _ _ hk]
      · rw [dictGet_dictSet_ne _ _ _ hk]
      · exact dictContains_dictSet_mono _ _ (dictContains_dictSet_mono _ _ hks)
      · exact dictContains_dictSet_mono _ _ hks
    · rw [e, if_neg hr]
      refine ⟨?_, ?_, fun k hk => ⟨?_, ?_⟩, fun k hks => ?_, fun k hks => ?_, hreward⟩
      · rw [if_neg hr, dictGet_dictSet_self, ha1]
      · rw [if_neg hr, dictGet_dictSet_self, dictGet_dictSet_self, hb1]
      · rw [dictGet_dictSet_ne _ _ _ hk]
      · rw [dictGet_dictSet_ne _ _ _ hk, dictGet_dictSet_ne _ _ _ hk]
      · exact dictContains_dictSet_mono _ _ hks
      · exact dictContains_dictSet_mono _ _ (dictContains_dictSet_mono _ _ hks)

/-- Concrete run of `bandit_update_increments_one_counter`: a positive reward
on a fresh movie yields counters `(2, 1)` and leaves an unrelated movie at the
prior. -/
theorem bandit_update_increments_one_counter_witness :
    dictGet (TSupdate ⟨[], []⟩ "x" 1).alpha "x" 1 = 2
    ∧ dictGet (TSupdate ⟨[], []⟩ "x" 1).beta_param "x" 1 = 1
    ∧ dictGet (TSupdate ⟨[], []⟩ "x" 1).alpha "y" 1 = 1 := by
  have h := bandit_update_increments_one_counter ⟨[], []⟩ "x" 1 rfl
  refine ⟨?_, ?_, ?_⟩
  · rw [h.1]; norm_num [dictGet]
  · rw [h.2.1]; norm_num [dictGet]
  · rw [(h.2.2.1 "y" (by decide)).1]
    rfl

/-! ## `ThompsonSamplingRecommender.sample_movies` (main.py lines 731-776)

Randomness is passed in explicitly: `draw movie` is the fresh
`np.random.beta(alpha[movie], beta_param[movie])` sample, `exploreChoice` is
the outcome of `np.random.choice(low_confidence_movies, min(n_explore,
len(low_confidence_movies)), replace=False)` (hence, in the theorems, a
duplicate-free selection from the low-confidence list of exactly that
length), and `shuffle` is the final `random.shuffle` (hence a permutation).
The method's only state mutation is inserting the `(1, 1)` prior for unseen
candidates, which no `get`-with-default-1 read can distinguish, so the
embedding returns just the recommended list. -/

/-- The low-evidence test of the explore step (main.py lines 757-760):
total counter mass below 10. -/
def lowEvidence (st : TSState) (m : String) : Bool :=
  decide (dictGet st.alpha m 1 + dictGet st.beta_param m 1 < 10)

/-- `low_confidence_movies`: the candidates with little feedback. -/
def lowConfidenceMovies (st : TSState) (candidates : List String) : List String :=
  candidates.filter (lowEvidence st)

/-- `n_explore = int(n_samples * explore_rate)`. -/
def nExplore (n_samples : Nat) (explore_rate : ℚ) : Nat :=
  ((n_samples : ℚ) * explore_rate).floor.toNat

theorem ratFloor_eq_intFloor (q : ℚ) : q.floor = ⌊q⌋ :=
  (Rat.floor_def' q).trans Rat.floor_def.symm

theorem nExplore_twenty_half : nExplore 20 (Rat.divInt 1 2) = 10 := by
  have hm : ((20 : ℕ) : ℚ) * Rat.divInt 1 2 = 10 := by
    rw [Rat.divInt_eq_div]
    norm_num
  unfold nExplore
  rw [hm]
  decide

theorem nExplore_two_half : nExplore 2 (Rat.divInt 1 2) = 1 := by
  have hm : ((2 : ℕ) : ℚ) * Rat.divInt 1 2 = 1 := by
    rw [Rat.divInt_eq_div]
    norm_num
  unfold nExplore
  rw [hm]
  decide

/-- Descending comparison on the score component, as used by
`sorted(..., key=lambda x: -x[1])`. -/
def sndGe {α : Type} (a b : α × ℚ) : Prop := b.2 ≤ a.2

instance {α : Type} : DecidableRel (@sndGe α) :=
  fun a b => inferInstanceAs (Decidable (b.2 ≤ a.2))

instance {α : Type} : IsTotal (α × ℚ) sndGe := ⟨fun a b => le_total b.2 a.2⟩

instance {α : Type} : IsTrans (α × ℚ) sndGe := ⟨fun _ _ _ h1 h2 => le_trans h2 h1⟩

/-- `ThompsonSamplingRecommender.sample_movies`: the exploit budget
`n_samples - int(n_samples * explore_rate)` is filled with the top candidates
by their fresh Beta draws; the explore budget is filled by the uniform
without-replacement choice from the low-confidence candidates (when any exist
and the budget is positive, each tagged with score `0.5`); the concatenation
is shuffled and the movie ids are returned. -/
def sample_movies (st : TSState) (candidate_movies : List String)
    (n_samples : Nat) (explore_rate : ℚ) (draw : String → ℚ)
    (exploreChoice : List String)
    (shuffle : List (String × ℚ) → List (String × ℚ)) : List String :=
  let n_explore := nExplore n_samples explore_rate
  let n_exploit := n_samples - n_explore
  let exploit_scores := candidate_movies.map fun m => (m, draw m)
  let exploit_recs := (exploit_scores.insertionSort sndGe).take n_exploit
  let low_confidence := lowConfidenceMovies st candidate_movies
  let explore_recs :=
    if low_confidence ≠ [] ∧ 0 < n_explore then
      exploreChoice.map fun m => (m, (1 : ℚ) / 2)
    else []
  (shuffle (exploit_recs ++ explore_recs)).map Prod.fst

/-- Claim C4: the requested count splits into the exploit budget
`n - int(n * rate)` (top fresh Beta draws) and the explore budget
`int(n * rate)` (uniform over low-evidence candidates); when fewer
low-evidence candidates exist than the explore budget, the call returns
exactly `min(n - int(n*rate), |candidates|) + |low-evidence|` items — in
particular fewer than `n` — and no error is raised (the function is total). -/
theorem sample_movies_explore_shortfall (st : TSState) (cands : List String)
    (n : Nat) (rate : ℚ) (draw : String → ℚ) (choice : List String)
    (shuffle : List (String × ℚ) → List (String × ℚ))
    (hsh : ∀ l, (shuffle l).Perm l)
    (hlen : choice.length
      = min (nExplore n rate) (lowConfidenceMovies st cands).length)
    (hr1 : rate ≤ 1)
    (hfew : (lowConfidenceMovies st cands).length < nExplore n rate) :
    (sample_movies st cands n rate draw choice shuffle).length
      = min (n - nExplore n rate) cands.length
        + (lowConfidenceMovies st cands).length
    ∧ (sample_movies st cands n rate draw choice shuffle).length < n := by
  have hle : nExplore n rate ≤ n := by
    have h1 : (n : ℚ) * rate ≤ (n : ℚ) := by
      calc (n : ℚ) * rate ≤ (n : ℚ) * 1 :=
        mul_le_mul_of_nonneg_left hr1 (by positivity)
      _ = (n : ℚ) := mul_one _
    have h2 : ⌊(n : ℚ) * rate⌋ ≤ ⌊(n : ℚ)⌋ := Int.floor_le_floor h1
    rw [Int.floor_natCast] at h2
    unfold nExplore
    rw [ratFloor_eq_intFloor]
    exact Int.toNat_le.mpr h2
  have hlength : (sample_movies st cands n rate draw choice shuffle).length
      = min (n - nExplore n rate) cands.length
        + (lowConfidenceMovies st cands).length := by
    simp only [sample_movies]
    rw [List.length_map, (hsh _).length_eq, List.length_append,
      List.length_take, List.length_insertionSort, List.length_map]
    congr 1
    by_cases hempty : lowConfidenceMovies st cands = []
    · have hno : ¬(lowConfidenceMovies st cands ≠ [] ∧ 0 < nExplore n rate) := by
        intro hcon
        exact hcon.1 hempty
      rw [if_neg hno, hempty]
      rfl
    · have hcond : lowConfidenceMovies st cands ≠ [] ∧ 0 < nExplore n rate :=
        ⟨hempty, Nat.lt_of_le_of_lt (Nat.zero_le _) hfew⟩
      rw [if_pos hcond, List.length_map, hlen,
        Nat.min_eq_right (Nat.le_of_lt hfew)]
  refine ⟨hlength, ?_⟩
  rw [hlength]
  have hminle : min (n - nExplore n rate) cands.length ≤ n - nExplore n rate :=
    Nat.min_le_left _ _
  omega

/-- Concrete run of `sample_movies_explore_shortfall`: 20 requested items
with explore rate one half, but only 3 low-evidence candidates, yield
6 items — fewer than 20, no error. -/
theorem sample_movies_explore_shortfall_witness :
    (sample_movies ⟨[], []⟩ ["a", "b", "c"] 20 (Rat.divInt 1 2) (fun _ => 0)
      ["a", "b", "c"] id).length = 6
    ∧ (sample_movies ⟨[], []⟩ ["a", "b", "c"] 20 (Rat.divInt 1 2) (fun _ => 0)
      ["a", "b", "c"] id).length < 20 := by
  have h := sample_movies_explore_shortfall ⟨[], []⟩ ["a", "b", "c"] 20
    (Rat.divInt 1 2) (fun _ => 0) ["a", "b", "c"] id
    (fun l => List.Perm.refl l) (by rw [nExplore_twenty_half]; decide)
    (by decide) (by rw [nExplore_twenty_half]; decide)
  refine ⟨?_, h.2⟩
  rw [h.1, nExplore_twenty_half]
  decide

/-- Claim C9 counterexample: with the single low-evidence candidate `m`, two
requested items and explore rate one half, the exploit step picks `m` (top
Beta draw) and the explore step picks `m` again, so `m` appears twice in the
returned list: the result is not duplicate-free, hence not a subset in the
claimed sense. -/
theorem sample_movies_duplicate_counterexample :
    (sample_movies ⟨[], []⟩ ["m"] 2 (Rat.divInt 1 2) (fun _ => 0) ["m"]
      id).count "m" = 2 := by
  have e : sample_movies ⟨[], []⟩ ["m"] 2 (Rat.divInt 1 2) (fun _ => 0) ["m"] id
      = (id ((((["m"].map fun m => (m, (0 : ℚ))).insertionSort sndGe).take
          (2 - nExplore 2 (Rat.divInt 1 2)))
        ++ (if lowConfidenceMovies ⟨[], []⟩ ["m"] ≠ []
              ∧ 0 < nExplore 2 (Rat.divInt 1 2) then
            ["m"].map fun m => (m, (1 : ℚ) / 2)
          else []))).map Prod.fst := rfl
  rw [e, nExplore_two_half]
  decide

/-- Claim C9 (amended): every element returned by `sample_movies` is drawn
from the candidate list, but the returned list need not be duplicate-free: a
low-evidence candidate can be chosen by the exploit step and the explore step
at once, in which case it appears twice; no element appears more than
twice. -/
theorem sample_movies_subset_bounded_dup (st : TSState) (cands : List String)
    (n : Nat) (rate : ℚ) (draw : String → ℚ) (choice : List String)
    (shuffle : List (String × ℚ) → List (String × ℚ))
    (hc : cands.Nodup) (hsh : ∀ l, (shuffle l).Perm l)
    (hmem : ∀ m ∈ choice, m ∈ lowConfidenceMovies st cands)
    (hnd : choice.Nodup) :
    (∀ m ∈ sample_movies st cands n rate draw choice shuffle, m ∈ cands)
    ∧ ∀ m, (sample_movies st cands n rate draw choice shuffle).count m ≤ 2 := by
  have hperm : (sample_movies st cands n rate draw choice shuffle).Perm
      (((((cands.map fun m => (m, draw m)).insertionSort sndGe).take
          (n - nExplore n rate)).map Prod.fst)
        ++ ((if lowConfidenceMovies st cands ≠ [] ∧ 0 < nExplore n rate then
            choice.map fun m => (m, (1 : ℚ) / 2)
          else []).map Prod.fst)) := by
    rw [← List.map_append]
    exact (hsh _).map Prod.fst
  have hexmem : ∀ m ∈ ((((cands.map fun m => (m, draw m)).insertionSort
      sndGe).take (n - nExplore n rate)).map Prod.fst), m ∈ cands := by
    intro m hm
    rcases List.mem_map.mp hm with ⟨p, hp, rfl⟩
    have hp2 : p ∈ (cands.map fun m => (m, draw m)).insertionSort sndGe :=
      List.mem_of_mem_take hp
    have hp3 : p ∈ cands.map fun m => (m, draw m) :=
      (List.perm_insertionSort sndGe _).mem_iff.mp hp2
    rcases List.mem_map.mp hp3 with ⟨c, hcmem, rfl⟩
    exact hcmem
  have hermem : ∀ m ∈ ((if lowConfidenceMovies st cands ≠ []
      ∧ 0 < nExplore n rate then
        choice.map fun m => (m, (1 : ℚ) / 2)
      else []).map Prod.fst), m ∈ cands := by
    intro m hm
    by_cases hcond : lowConfidenceMovies st cands ≠ [] ∧ 0 < nExplore n rate
    · rw [if_pos hcond] at hm
      rcases List.mem_map.mp hm with ⟨p, hp, rfl⟩
      rcases List.mem_map.mp hp with ⟨c, hcmem, rfl⟩
      exact (List.mem_filter.mp (hmem c hcmem)).1
    · rw [if_neg hcond] at hm
      simp at hm
  have hexcount : ∀ m, (((((cands.map fun m => (m, draw m)).insertionSort
      sndGe).take (n - nExplore n rate)).map Prod.fst)).count m ≤ 1 := by
    intro m
    have h1 : List.Sublist
        ((((cands.map fun m => (m, draw m)).insertionSort sndGe).take
          (n - nExplore n rate)).map Prod.fst)
        (((cands.map fun m => (m, draw m)).insertionSort sndGe).map Prod.fst) :=
      (List.take_sublist _ _).map Prod.fst
    have h2 := h1.count_le m
    have h3 : (((cands.map fun m => (m, draw m)).insertionSort sndGe).map
        Prod.fst).count m = ((cands.map fun m => (m, draw m)).map Prod.fst).count m :=
      ((List.perm_insertionSort sndGe _).map Prod.fst).count_eq m
    have h4 : (cands.map fun m => (m, draw m)).map Prod.fst = cands := by
      simp [Function.comp_def]
    rw [h3, h4] at h2
    exact h2.trans (List.nodup_iff_count_le_one.mp hc m)
  have hercount : ∀ m, ((if lowConfidenceMovies st cands ≠ []
      ∧ 0 < nExplore n rate then
        choice.map fun m => (m, (1 : ℚ) / 2)
      else []).map Prod.fst).count m ≤ 1 := by
    intro m
    by_cases hcond : lowConfidenceMovies st cands ≠ [] ∧ 0 < nExplore n rate
    · rw [if_pos hcond]
      have h4 : (choice.map fun m => (m, (1 : ℚ) / 2)).map Prod.fst = choice := by
        simp [Function.comp_def]
      rw [h4]
      exact List.nodup_iff_count_le_one.mp hnd m
    · rw [if_neg hcond]
      simp
  constructor
  · intro m hm
    rcases List.mem_append.mp (hperm.mem_iff.mp hm) with h | h
    · exact hexmem m h
    · exact hermem m h
  · intro m
    rw [hperm.count_eq, List.count_append]
    exact Nat.add_le_add (hexcount m) (hercount m)

/-- Concrete run of `sample_movies_subset_bounded_dup`: the chosen candidate
is a member of the candidate list, and no movie occurs more than twice in the
returned list. -/
theorem sample_movies_subset_bounded_dup_witness :
    "a" ∈ ["a", "b"]
    ∧ (sample_movies ⟨[], []⟩ ["a", "b"] 2 (Rat.divInt 1 2) (fun _ => 0) ["a"]
        id).count "a" ≤ 2 := by
  have h := sample_movies_subset_bounded_dup ⟨[], []⟩ ["a", "b"] 2
    (Rat.divInt 1 2) (fun _ => 0) ["a"] id (by decide)
    (fun l => List.Perm.refl l) (by decide) (by decide)
  exact ⟨by decide, h.2 "a"⟩

/-! ## Title lookup (`find_movie_index_by_name`, main.py lines 428-443)

`difflib.get_close_matches` (an external standard-library collaborator) is
passed in as the oracle `closeMatches`; the only fact the lookup relies on is
that its matches come from the offered title list.  `normalize_text`
(main.py lines 213-219) is embedded for the ASCII titles the dataset holds:
lowercase, strip, replace non-alphanumerics by spaces, collapse whitespace
runs. -/

/-- The characters Python's `\s` and `str.strip()` treat as whitespace. -/
def pyIsSpace (c : Char) : Bool :=
  c = ' ' || c = '\t' || c = '\n' || c = '\r' || c = '\x0b' || c = '\x0c'

/-- ASCII `str.lower()`. -/
def pyLowerChar (c : Char) : Char :=
  if 'A' ≤ c && c ≤ 'Z' then Char.ofNat (c.toNat + 32) else c

/-- `str.strip()`: drop leading and trailing whitespace. -/
def pyStrip (l : List Char) : List Char :=
  ((l.dropWhile pyIsSpace).reverse.dropWhile pyIsSpace).reverse

/-- One step of `re.sub(r"[^a-z0-9\s]", " ", t)`: any character outside
`a-z`, `0-9` and whitespace becomes a space. -/
def subNonAlnum (c : Char) : Char :=
  if ('a' ≤ c && c ≤ 'z') || ('0' ≤ c && c ≤ '9') || pyIsSpace c then c
  else ' '

/-- `re.sub(r"\s+", " ", t)`: collapse each maximal whitespace run to one
space; the flag records whether the previous kept character was part of a
run. -/
def collapseWsAux : Bool → List Char → List Char
  | _, [] => []
  | prevSpace, c :: rest =>
    if pyIsSpace c then
      if prevSpace then collapseWsAux true rest
      else ' ' :: collapseWsAux true rest
    else c :: collapseWsAux false rest

/-- `normalize_text` (main.py lines 213-219): lowercase and strip, then map
non-alphanumerics to spaces, then collapse whitespace runs. -/
def normalize_text (t : String) : String :=
  String.mk (collapseWsAux false
    ((pyStrip (t.data.map pyLowerChar)).map subNonAlnum))

/-- `find_movie_index_by_name` (main.py lines 428-443): exact normalized
lookup in the title dict first; then `difflib.get_close_matches` and the
index of its best match; then the first title containing the query as a
substring; `none` otherwise. -/
def find_movie_index_by_name (titleIndex : List (String × Nat))
    (closeMatches : String → List String → List String)
    (name : String) : Option Nat :=
  let norm := normalize_text name
  match titleIndex.find? fun p => p.1 = norm with
  | some p => some p.2
  | none =>
    let titles := titleIndex.map Prod.fst
    match closeMatches norm titles with
    | best :: _ => (titleIndex.find? fun p => p.1 = best).map Prod.snd
    | [] =>
      (titleIndex.find? fun p => List.IsInfix norm.data p.1.data).map Prod.snd

/-- Claim C5: the three match strategies run in the fixed priority order
exact → fuzzy → substring, the first hit is returned, and the lookup reports
`none` exactly when all three strategies fail.  The hypothesis is the
contract of `difflib.get_close_matches`: every match it returns is one of the
offered titles. -/
theorem find_movie_priority_order (titleIndex : List (String × Nat))
    (closeMatches : String → List String → List String) (name : String)
    (hcm : ∀ q ts, ∀ s ∈ closeMatches q ts, s ∈ ts) :
    (find_movie_index_by_name titleIndex closeMatches name = none ↔
      ((∀ p ∈ titleIndex, p.1 ≠ normalize_text name)
        ∧ closeMatches (normalize_text name) (titleIndex.map Prod.fst) = []
        ∧ ∀ p ∈ titleIndex,
            ¬ List.IsInfix (normalize_text name).data p.1.data))
    ∧ (∀ p, titleIndex.find? (fun q => q.1 = normalize_text name) = some p →
        find_movie_index_by_name titleIndex closeMatches name = some p.2)
    ∧ (titleIndex.find? (fun q => q.1 = normalize_text name) = none →
        ∀ b bs, closeMatches (normalize_text name) (titleIndex.map Prod.fst)
            = b :: bs →
          find_movie_index_by_name titleIndex closeMatches name
            = (titleIndex.find? fun q => q.1 = b).map Prod.snd)
    ∧ (titleIndex.find? (fun q => q.1 = normalize_text name) = none →
        closeMatches (normalize_text name) (titleIndex.map Prod.fst) = [] →
          find_movie_index_by_name titleIndex closeMatches name
            = (titleIndex.find? fun q =>
                List.IsInfix (normalize_text name).data q.1.data).map
              Prod.snd) := by
  refine ⟨?_, ?_, ?_, ?_⟩
  · cases hexact : titleIndex.find? fun q => q.1 = normalize_text name with
    | some p =>
      have hres : find_movie_index_by_name titleIndex closeMatches name
          = some p.2 := by
        simp only [find_movie_index_by_name]
        rw [hexact]
      rw [hres]
      constructor
      · intro h
        cases h
      · rintro ⟨hall, -, -⟩
        have hpmem := List.mem_of_find?_eq_some hexact
        have hppred := List.find?_some hexact
        exact absurd (by simpa using hppred) (hall p hpmem)
    | none =>
      cases hfuzzy : closeMatches (normalize_text name)
          (titleIndex.map Prod.fst) with
      | cons b bs =>
        have hres : find_movie_index_by_name titleIndex closeMatches name
            = (titleIndex.find? fun q => q.1 = b).map Prod.snd := by
          simp only [find_movie_index_by_name]
          rw [hexact, hfuzzy]
        have hb : b ∈ titleIndex.map Prod.fst :=
          hcm _ _ b (hfuzzy ▸ List.mem_cons_self b bs)
        rcases List.mem_map.mp hb with ⟨p, hpmem, hpfst⟩
        have hsome : (titleIndex.find? fun q => q.1 = b).isSome := by
          rw [List.find?_isSome]
          exact ⟨p, hpmem, by simp [hpfst]⟩
        rw [hres]
        constructor
        · intro h
          rcases Option.isSome_iff_exists.mp hsome with ⟨p', hp'⟩
          rw [hp'] at h
          cases h
        · rintro ⟨-, hempt, -⟩
          cases hempt
      | nil =>
        have hres : find_movie_index_by_name titleIndex closeMatches name
            = (titleIndex.find? fun q =>
                List.IsInfix (normalize_text name).data q.1.data).map
              Prod.snd := by
          simp only [find_movie_index_by_name]
          rw [hexact, hfuzzy]
        rw [hres]
        constructor
        · intro h
          have hsubnone : (titleIndex.find? fun q =>
              List.IsInfix (normalize_text name).data q.1.data) = none := by
            cases hfind : titleIndex.find? fun q =>
                List.IsInfix (normalize_text name).data q.1.data with
            | none => rfl
            | some p =>
              rw [hfind] at h
              cases h
          refine ⟨?_, rfl, ?_⟩
          · intro p hp
            have := List.find?_eq_none.mp hexact p hp
            simpa using this
          · intro p hp
            have := List.find?_eq_none.mp hsubnone p hp
            simpa using this
        · rintro ⟨-, -, hsub⟩
          have hnone : (titleIndex.find? fun q =>
              List.IsInfix (normalize_text name).data q.1.data) = none := by
            rw [List.find?_eq_none]
            intro p hp
            simpa using hsub p hp
          rw [hnone]
          rfl
  · intro p hp
    simp only [find_movie_index_by_name]
    rw [hp]
  · intro hnone b bs hbs
    simp only [find_movie_index_by_name]
    rw [hnone, hbs]
  · intro hnone hempty
    simp only [find_movie_index_by_name]
    rw [hnone, hempty]

/-- Concrete run of `find_movie_priority_order`: an exact normalized match is
returned immediately. -/
theorem find_movie_priority_order_witness :
    find_movie_index_by_name [("toy story", 0)] (fun _ _ => []) "Toy Story"
      = some 0 := by
  have h := (find_movie_priority_order [("toy story", 0)] (fun _ _ => [])
    "Toy Story" (by intro q ts s hs; cases hs)).2.1 ("toy story", 0)
    (by decide)
  exact h

/-! ## Exploration flag of the orchestrator (main.py lines 1086-1102) -/

/-- `total_feedback = alpha.get(m, 1) + beta_param.get(m, 1) - 2`: the
observed evidence with the two prior pseudo-counts removed. -/
def total_feedback (st : TSState) (m : String) : ℤ :=
  (dictGet st.alpha m 1 : ℤ) + (dictGet st.beta_param m 1 : ℤ) - 2

/-- `is_exploration = total_feedback < 5` — the flag the orchestrator attaches
to each personalized result. -/
def is_exploration (st : TSState) (m : String) : Bool :=
  decide (total_feedback st m < 5)

/-- Claim C10 counterexample: a movie with counters `(4, 3)` is below the
bandit explore step's low-evidence threshold (`4 + 3 < 10`) yet is NOT marked
as exploration (`total_feedback = 5` is not `< 5`): the orchestrator's flag
does not use the same threshold as the bandit's explore step. -/
theorem exploration_flag_threshold_mismatch :
    lowEvidence ⟨[("x", 4)], [("x", 3)]⟩ "x" = true
    ∧ is_exploration ⟨[("x", 4)], [("x", 3)]⟩ "x" = false := by decide

/-- Claim C10 (amended): a personalized result is marked as exploration iff
its counter mass `alpha + beta_param` is below 7 (evidence below 5), a
strictly tighter bound than the explore step's low-evidence test
(`alpha + beta_param < 10`); hence every exploration-marked result is
low-evidence for the bandit, but not conversely. -/
theorem exploration_flag_is_five_threshold (st : TSState) (m : String) :
    (is_exploration st m = true
      ↔ dictGet st.alpha m 1 + dictGet st.beta_param m 1 < 7)
    ∧ (is_exploration st m = true → lowEvidence st m = true) := by
  have hchar : is_exploration st m = true
      ↔ dictGet st.alpha m 1 + dictGet st.beta_param m 1 < 7 := by
    unfold is_exploration total_feedback
    simp only [decide_eq_true_eq]
    omega
  refine ⟨hchar, fun hx => ?_⟩
  have h7 := hchar.mp hx
  unfold lowEvidence
  simp only [decide_eq_true_eq]
  omega

/-- Concrete run of `exploration_flag_is_five_threshold`: a movie with
counters `(2, 1)` is marked exploration and is indeed low-evidence. -/
theorem exploration_flag_is_five_threshold_witness :
    lowEvidence ⟨[("x", 2)], [("x", 1)]⟩ "x" = true :=
  (exploration_flag_is_five_threshold ⟨[("x", 2)], [("x", 1)]⟩ "x").2 (by decide)

/-! ## Ensemble fusion (`ensemble_recommendations`, main.py lines 847-905)

A model that survived its shape guards contributes its recommendation list
`recs[0]`/`recs[1]`, modelled as a list of `(movie index, raw score)` pairs;
`models` lists the surviving models in the dict's iteration order. -/

/-- The fixed fusion weights (main.py line 854):
`{'als': 0.5, 'bpr': 0.3, 'lmf': 0.2}`. -/
def weights (model_name : String) : ℚ :=
  if model_name = "als" then 1 / 2
  else if model_name = "bpr" then 3 / 10
  else if model_name = "lmf" then 1 / 5
  else 0

/-- `all_recs[movie_idx] += w * score` with the `0` default: replace the
entry in place or append it with initial value `0 + v = v`. -/
def dictAdd (d : List (Nat × ℚ)) (k : Nat) (v : ℚ) : List (Nat × ℚ) :=
  match d with
  | [] => [(k, v)]
  | p :: rest => if p.1 = k then (k, p.2 + v) :: rest else p :: dictAdd rest k v

/-- `all_recs.get(k, 0)`: the accumulated fused score of movie `k`. -/
def fusedScore : List (Nat × ℚ) → Nat → ℚ
  | [], _ => 0
  | p :: rest, k => if p.1 = k then p.2 else fusedScore rest k

/-- The accumulation loop of `ensemble_recommendations` (main.py lines
862-892): every surviving model adds `weights[name] * score` into `all_recs`
for each movie it recommends. -/
def ensembleFuse (models : List (String × List (Nat × ℚ))) : List (Nat × ℚ) :=
  models.foldl
    (fun acc m => m.2.foldl (fun a p => dictAdd a p.1 (weights m.1 * p.2)) acc)
    []

/-- `ensemble_recommendations` result (main.py lines 894-905): empty fallback
when no model produced anything, otherwise the fused table sorted by fused
score descending, truncated to `N`. -/
def ensemble_recommendations (models : List (String × List (Nat × ℚ)))
    (N : Nat) : List (Nat × ℚ) :=
  let all_recs := ensembleFuse models
  if all_recs.isEmpty then []
  else (all_recs.insertionSort sndGe).take N

/-- The specification-side fused score: the sum over the models of that
model's weight times the scores it reported for movie `k`. -/
def specFused (models : List (String × List (Nat × ℚ))) (k : Nat) : ℚ :=
  (models.map fun m =>
    ((m.2.filter fun p => p.1 = k).map fun p => weights m.1 * p.2).sum).sum

theorem fusedScore_dictAdd (d : List (Nat × ℚ)) (k : Nat) (v : ℚ) (k' : Nat) :
    fusedScore (dictAdd d k v) k' = fusedScore d k' + if k' = k then v else 0 := by
  induction d with
  | nil =>
    by_cases hk : k = k'
    · subst hk
      simp [dictAdd, fusedScore]
    · have hk2 : ¬(k' = k) := fun h => hk h.symm
      simp [dictAdd, fusedScore, hk, hk2]
  | cons p rest ih =>
    by_cases hp : p.1 = k
    · by_cases hk : k = k'
      · subst hk
        simp [dictAdd, hp, fusedScore]
      · have hk2 : ¬(k' = k) := fun h => hk h.symm
        simp [dictAdd, hp, fusedScore, hk, hk2]
    · by_cases hp' : p.1 = k'
      · have hkk : ¬(k' = k) := by
          rw [← hp']
          exact fun h => hp h
        simp [dictAdd, hp, fusedScore, hp', hkk]
      · simp [dictAdd, hp, fusedScore, hp', ih]

theorem mem_keys_dictAdd {d : List (Nat × ℚ)} {k : Nat} {v : ℚ} {x : Nat} :
    x ∈ (dictAdd d k v).map Prod.fst → x ∈ d.map Prod.fst ∨ x = k := by
  induction d with
  | nil =>
    intro hx
    simp only [dictAdd, List.map_cons, List.map_nil] at hx
    rcases List.mem_cons.mp hx with h | h
    · exact Or.inr h
    · cases h
  | cons p rest ih =>
    intro hx
    rw [List.map_cons]
    simp only [dictAdd] at hx
    by_cases hp : p.1 = k
    · rw [if_pos hp, List.map_cons] at hx
      rcases List.mem_cons.mp hx with h | h
      · exact Or.inr h
      · exact Or.inl (List.mem_cons_of_mem _ h)
    · rw [if_neg hp, List.map_cons] at hx
      rcases List.mem_cons.mp hx with h | h
      · exact Or.inl (List.mem_cons.mpr (Or.inl h))
      · rcases ih h with h' | h'
        · exact Or.inl (List.mem_cons_of_mem _ h')
        · exact Or.inr h'

theorem nodupKeys_dictAdd {d : List (Nat × ℚ)} (k : Nat) (v : ℚ)
    (hnd : (d.map Prod.fst).Nodup) :
    ((dictAdd d k v).map Prod.fst).Nodup := by
  induction d with
  | nil => simp [dictAdd]
  | cons p rest ih =>
    rw [List.map_cons, List.nodup_cons] at hnd
    simp only [dictAdd]
    by_cases hp : p.1 = k
    · rw [if_pos hp, List.map_cons, List.nodup_cons]
      exact ⟨hp ▸ hnd.1, hnd.2⟩
    · rw [if_neg hp, List.map_cons, List.nodup_cons]
      refine ⟨fun hmem => ?_, ih hnd.2⟩
      rcases mem_keys_dictAdd hmem with h | h
      · exact hnd.1 h
      · exact hp h

theorem fusedScore_eq_of_mem {d : List (Nat × ℚ)}
    (hnd : (d.map Prod.fst).Nodup) {p : Nat × ℚ} (hp : p ∈ d) :
    fusedScore d p.1 = p.2 := by
  induction d with
  | nil => cases hp
  | cons q rest ih =>
    rw [List.map_cons, List.nodup_cons] at hnd
    rcases List.mem_cons.mp hp with rfl | hp'
    · simp [fusedScore]
    · have hq : ¬(q.1 = p.1) := by
        intro he
        exact hnd.1 (he ▸ List.mem_map_of_mem Prod.fst hp')
      simp only [fusedScore, hq, if_false]
      exact ih hnd.2 hp'

theorem fusedScore_foldl_model (recs : List (Nat × ℚ)) (w : ℚ)
    (acc : List (Nat × ℚ)) (k : Nat) :
    fusedScore (recs.foldl (fun a p => dictAdd a p.1 (w * p.2)) acc) k
      = fusedScore acc k
        + ((recs.filter fun p => p.1 = k).map fun p => w * p.2).sum := by
  induction recs generalizing acc with
  | nil => simp
  | cons p rest ih =>
    rw [List.foldl_cons, ih, fusedScore_dictAdd, List.filter_cons]
    by_cases hk : p.1 = k
    · have hk' : k = p.1 := hk.symm
      rw [if_pos hk',
        if_pos (show decide (p.1 = k) = true by simpa using hk),
        List.map_cons, List.sum_cons]
      ring
    · have hk' : ¬(k = p.1) := fun h => hk h.symm
      rw [if_neg hk',
        if_neg (show ¬(decide (p.1 = k) = true) by simpa using hk)]
      ring

theorem nodupKeys_foldl_model (recs : List (Nat × ℚ)) (w : ℚ)
    (acc : List (Nat × ℚ)) (hacc : (acc.map Prod.fst).Nodup) :
    (((recs.foldl (fun a p => dictAdd a p.1 (w * p.2)) acc)).map
      Prod.fst).Nodup := by
  induction recs generalizing acc with
  | nil => simpa using hacc
  | cons p rest ih =>
    rw [List.foldl_cons]
    exact ih _ (nodupKeys_dictAdd _ _ hacc)

theorem specFused_cons (m : String × List (Nat × ℚ))
    (rest : List (String × List (Nat × ℚ))) (k : Nat) :
    specFused (m :: rest) k
      = ((m.2.filter fun p => p.1 = k).map fun p => weights m.1 * p.2).sum
        + specFused rest k := by
  rw [specFused, specFused, List.map_cons, List.sum_cons]

theorem fusedScore_ensembleFuse_aux
    (models : List (String × List (Nat × ℚ))) (k : Nat) :
    ∀ acc : List (Nat × ℚ),
      fusedScore (models.foldl
        (fun acc m => m.2.foldl
          (fun a p => dictAdd a p.1 (weights m.1 * p.2)) acc) acc) k
      = fusedScore acc k + specFused models k := by
  induction models with
  | nil => intro acc; simp [specFused]
  | cons m rest ih =>
    intro acc
    rw [List.foldl_cons, ih, fusedScore_foldl_model, specFused_cons]
    ring

theorem fusedScore_ensembleFuse (models : List (String × List (Nat × ℚ)))
    (k : Nat) : fusedScore (ensembleFuse models) k = specFused models k := by
  rw [ensembleFuse, fusedScore_ensembleFuse_aux models k []]
  simp [fusedScore]

theorem nodupKeys_ensembleFuse (models : List (String × List (Nat × ℚ))) :
    ((ensembleFuse models).map Prod.fst).Nodup := by
  rw [ensembleFuse]
  suffices h : ∀ acc : List (Nat × ℚ), (acc.map Prod.fst).Nodup →
      ((models.foldl (fun acc m => m.2.foldl
        (fun a p => dictAdd a p.1 (weights m.1 * p.2)) acc) acc).map
        Prod.fst).Nodup by
    exact h [] (by simp)
  induction models with
  | nil => intro acc hacc; simpa using hacc
  | cons m rest ih =>
    intro acc hacc
    rw [List.foldl_cons]
    exact ih _ (nodupKeys_foldl_model _ _ _ hacc)

/-- Claim C7: every item of the fused candidate list carries the sum, over
the models that returned a result, of the model's fixed weight times its raw
score for that item, and the list is ordered by fused score descending. -/
theorem ensemble_fusion_weighted_sum_sorted
    (models : List (String × List (Nat × ℚ))) (N : Nat) :
    (∀ p ∈ ensemble_recommendations models N, p.2 = specFused models p.1)
    ∧ (ensemble_recommendations models N).Sorted sndGe := by
  by_cases hemp : (ensembleFuse models).isEmpty = true
  · have hres : ensemble_recommendations models N = [] := by
      simp only [ensemble_recommendations]
      rw [if_pos hemp]
    rw [hres]
    exact ⟨fun p hp => absurd hp (List.not_mem_nil p), List.sorted_nil⟩
  · have hres : ensemble_recommendations models N
        = ((ensembleFuse models).insertionSort sndGe).take N := by
      simp only [ensemble_recommendations]
      rw [if_neg hemp]
    rw [hres]
    constructor
    · intro p hp
      have hp2 : p ∈ (ensembleFuse models).insertionSort sndGe :=
        List.mem_of_mem_take hp
      have hp3 : p ∈ ensembleFuse models :=
        (List.perm_insertionSort sndGe _).mem_iff.mp hp2
      have := fusedScore_eq_of_mem (nodupKeys_ensembleFuse models) hp3
      rw [← this, fusedScore_ensembleFuse]
    · exact List.Pairwise.sublist (List.take_sublist _ _)
        (List.sorted_insertionSort sndGe (ensembleFuse models))

/-- Concrete run of `ensemble_fusion_weighted_sum_sorted`: with one model
(`als`, movie 7 scored 2), the single fused entry carries
`weights als * 2` and the list is sorted. -/
theorem ensemble_fusion_weighted_sum_sorted_witness :
    weights "als" * 2 = specFused [("als", [(7, 2)])] 7
    ∧ (ensemble_recommendations [("als", [(7, 2)])] 1).Sorted sndGe :=
  ⟨(ensemble_fusion_weighted_sum_sorted [("als", [(7, 2)])] 1).1
      (7, weights "als" * 2) (List.Mem.head _),
    (ensemble_fusion_weighted_sum_sorted [("als", [(7, 2)])] 1).2⟩

/-! ## Per-variant training failures (`train_ensemble_als_models`,
main.py lines 778-844) -/

/-- The outcome of one `model.fit(rating_matrix)` call: either a trained
model or a raised exception. -/
inductive FitOutcome (M : Type) where
  | ok (model : M)
  | err
deriving DecidableEq, Repr

/-- Keep a variant iff its training succeeded. -/
def fitKeep {M : Type} (nm : String × FitOutcome M) : Option (String × M) :=
  match nm.2 with
  | .ok m => some (nm.1, m)
  | .err => none

/-- The training loop of `train_ensemble_als_models` (main.py lines 823-835):
each variant is fit inside `try`; on success it is added to
`trained_models`, on exception it is logged and skipped. -/
def train_ensemble_als_models {M : Type}
    (fits : List (String × FitOutcome M)) : List (String × M) :=
  fits.foldl
    (fun acc nm =>
      match nm.2 with
      | .ok m => acc ++ [(nm.1, m)]
      | .err => acc) []

theorem train_aux {M : Type} :
    ∀ (fits : List (String × FitOutcome M)) (acc : List (String × M)),
      fits.foldl
        (fun acc nm =>
          match nm.2 with
          | .ok m => acc ++ [(nm.1, m)]
          | .err => acc) acc
      = acc ++ fits.filterMap fitKeep
  | [], acc => by simp
  | nm :: rest, acc => by
    rw [List.foldl_cons]
    cases h : nm.2 with
    | ok m =>
      simp only [h]
      rw [train_aux rest (acc ++ [(nm.1, m)])]
      simp [fitKeep, List.filterMap_cons, h]
    | err =>
      simp only [h]
      rw [train_aux rest acc]
      simp [fitKeep, List.filterMap_cons, h]

theorem train_eq_filterMap {M : Type} (fits : List (String × FitOutcome M)) :
    train_ensemble_als_models fits = fits.filterMap fitKeep := by
  rw [train_ensemble_als_models, train_aux fits []]
  rfl

theorem assoc_unique {β : Type} {l : List (String × β)}
    (hnd : (l.map Prod.fst).Nodup) {k : String} {a b : β}
    (ha : (k, a) ∈ l) (hb : (k, b) ∈ l) : a = b := by
  induction l with
  | nil => cases ha
  | cons p rest ih =>
    rw [List.map_cons, List.nodup_cons] at hnd
    rcases List.mem_cons.mp ha with ha0 | ha' <;>
      rcases List.mem_cons.mp hb with hb0 | hb'
    · exact congrArg Prod.snd (ha0.trans hb0.symm)
    · have hp1 : p.1 = k := by rw [← ha0]
      have hk : k ∈ rest.map Prod.fst := List.mem_map_of_mem Prod.fst hb'
      exact absurd (by rw [hp1]; exact hk) hnd.1
    · have hp1 : p.1 = k := by rw [← hb0]
      have hk : k ∈ rest.map Prod.fst := List.mem_map_of_mem Prod.fst ha'
      exact absurd (by rw [hp1]; exact hk) hnd.1
    · exact ih hnd.2 ha' hb'

/-- Claim C8: a variant whose training raised is excluded from the trained
ensemble (its name never appears among the trained models), while every
variant whose training succeeded is present with its trained model; the loop
itself never aborts (it is a total fold over all variants). -/
theorem train_tolerates_single_failure {M : Type}
    (fits : List (String × FitOutcome M))
    (hnd : (fits.map Prod.fst).Nodup) :
    (∀ (n : String) (model : M), (n, FitOutcome.ok model) ∈ fits →
        (n, model) ∈ train_ensemble_als_models fits)
    ∧ (∀ n : String, (n, (FitOutcome.err : FitOutcome M)) ∈ fits →
        n ∉ (train_ensemble_als_models fits).map Prod.fst) := by
  constructor
  · intro n model h
    rw [train_eq_filterMap]
    exact List.mem_filterMap.mpr ⟨(n, .ok model), h, rfl⟩
  · intro n herr hmem
    rw [train_eq_filterMap] at hmem
    rcases List.mem_map.mp hmem with ⟨q, hq, hqfst⟩
    rcases List.mem_filterMap.mp hq with ⟨a, ha, hfa⟩
    cases h2 : a.2 with
    | ok m =>
      have hqa : q = (a.1, m) := by
        rw [fitKeep, h2] at hfa
        exact (Option.some.injEq _ _ ▸ hfa).symm
      have ha1 : a.1 = n := by
        rw [hqa] at hqfst
        exact hqfst
      have hok : (n, FitOutcome.ok m) ∈ fits := by
        have : a = (n, FitOutcome.ok m) := by
          rcases a with ⟨a1, a2⟩
          simp only at h2 ha1
          rw [h2, ha1]
        exact this ▸ ha
      exact FitOutcome.noConfusion (assoc_unique hnd herr hok)
    | err =>
      rw [fitKeep, h2] at hfa
      cases hfa

/-- Concrete run of `train_tolerates_single_failure`: with `bpr` failing,
`als` and `lmf` are trained and `bpr` is excluded. -/
theorem train_tolerates_single_failure_witness :
    ("als", 1) ∈ train_ensemble_als_models
        [("als", FitOutcome.ok 1), ("bpr", FitOutcome.err),
          ("lmf", FitOutcome.ok 2)]
    ∧ "bpr" ∉ (train_ensemble_als_models
        [("als", FitOutcome.ok 1), ("bpr", FitOutcome.err),
          ("lmf", FitOutcome.ok 2)]).map Prod.fst := by
  have h := train_tolerates_single_failure (M := Nat)
    [("als", .ok 1), ("bpr", .err), ("lmf", .ok 2)] (by decide)
  exact ⟨h.1 "als" 1 (by decide), h.2 "bpr" (by decide)⟩

end MovieRec
